import Mathlib

/-!
# Verification of the bigtools interval merger

A shallow embedding, in Lean 4, of the two source files of this repository:

* `src/bigwigmerge.rs` — the pairwise interval splitter `merge_into`, the
  queue-based multi-source merger `ValueSectionIter::next` /
  `merge_sections_many`, and the chromosome-metadata check performed by
  `get_merged_values`;
* `src/tempfilebuffer.rs` — the two-state (`Temp`/`Real`) write-before-
  destination buffer, in particular `TempFileBuffer::switch`.

Coordinates (`u32` in Rust) are modelled as `Nat`; the code performs no
coordinate arithmetic that could overflow.  The `f32` payload `value` is
modelled as `ℚ`: the algorithm only adds values and compares them with `0.0`,
and every claim under study concerns the interval geometry and the exact
algebra of those sums.  Fallible operations (Rust `panic!`) are modelled with
`Option`/`Except`.
-/

set_option maxHeartbeats 4000000
set_option maxRecDepth 4000

/-- Half-open genomic interval `[start, end)` carrying a value.
Models `bigwig::Value` (named `ValueSection` in `bigwigmerge.rs`). -/
structure ValueSection where
  start : Nat
  «end» : Nat
  value : ℚ
deriving DecidableEq, Repr

/-- The pairwise splitter `merge_into` of `bigwigmerge.rs` (lines 17–333),
translated branch by branch.  The Rust function panics when
`one.end <= two.start`; that is modelled by returning `none`. -/
def mergeInto (one two : ValueSection) :
    Option (ValueSection × Option ValueSection × Option ValueSection × Option ValueSection) :=
  if one.«end» ≤ two.start then
    none
  else if one.start = two.start then
    if one.«end» = two.«end» then
      some (⟨one.start, one.«end», one.value + two.value⟩, none, none, none)
    else if one.«end» < two.«end» then
      some (⟨one.start, one.«end», one.value + two.value⟩, none, none,
        some ⟨one.«end», two.«end», two.value⟩)
    else
      if two.value = 0 then
        some (one, none, none, none)
      else
        some (⟨two.start, two.«end», one.value + two.value⟩,
          some ⟨two.«end», one.«end», one.value⟩, none, none)
  else if one.start < two.start then
    if one.«end» = two.«end» then
      if two.value = 0 then
        some (⟨one.start, one.«end», one.value⟩, none, none, none)
      else
        some (⟨one.start, two.start, one.value⟩,
          some ⟨two.start, two.«end», one.value + two.value⟩, none, none)
    else if one.«end» < two.«end» then
      if one.value = 0 ∧ two.value = 0 then
        some (one, none, none, some ⟨one.«end», two.«end», 0⟩)
      else if one.value = 0 then
        some (⟨one.start, two.start, 0⟩,
          some ⟨two.start, one.«end», two.value⟩, none,
          some ⟨one.«end», two.«end», two.value⟩)
      else if two.value = 0 then
        some (one, none, none, some ⟨one.«end», two.«end», 0⟩)
      else
        some (⟨one.start, two.start, one.value⟩,
          some ⟨two.start, one.«end», one.value + two.value⟩, none,
          some ⟨one.«end», two.«end», two.value⟩)
    else
      if two.value = 0 then
        some (one, none, none, none)
      else
        some (⟨one.start, two.start, one.value⟩,
          some ⟨two.start, two.«end», one.value + two.value⟩,
          some ⟨two.«end», one.«end», one.value⟩, none)
  else
    if one.«end» = two.«end» then
      if one.value = 0 then
        some (two, none, none, none)
      else
        some (⟨two.start, one.start, two.value⟩,
          some ⟨one.start, one.«end», one.value + two.value⟩, none, none)
    else if one.«end» < two.«end» then
      if one.value = 0 then
        some (two, none, none, none)
      else
        some (⟨two.start, one.start, two.value⟩,
          some ⟨one.start, one.«end», one.value + two.value⟩, none,
          some ⟨one.«end», two.«end», two.value⟩)
    else
      if one.value = 0 ∧ two.value = 0 then
        some (⟨two.start, one.«end», 0⟩, none, none, none)
      else if one.value = 0 then
        some (two, some ⟨two.«end», one.«end», one.value⟩, none, none)
      else if two.value = 0 then
        some (⟨two.start, one.start, 0⟩,
          some ⟨one.start, one.«end», one.value⟩, none, none)
      else
        some (⟨two.start, one.start, two.value⟩,
          some ⟨one.start, two.«end», one.value + two.value⟩,
          some ⟨two.«end», one.«end», one.value⟩, none)

/-- All intervals produced by one `merge_into` call, in the order
`(primary, second, third, overhang)`. -/
def pieces (r : ValueSection × Option ValueSection × Option ValueSection × Option ValueSection) :
    List ValueSection :=
  r.1 :: (r.2.1.toList ++ r.2.2.1.toList ++ r.2.2.2.toList)

/-- The intervals of a `merge_into` result that are placed back into the queue
directly (primary, second, third) — everything except the overhang. -/
def innerPieces
    (r : ValueSection × Option ValueSection × Option ValueSection × Option ValueSection) :
    List ValueSection :=
  r.1 :: (r.2.1.toList ++ r.2.2.1.toList)

/-- Pointwise value of a collection of intervals at genomic position `p`:
the sum of the values of all intervals covering `p` (for a non-overlapping
collection this is the value of the unique covering interval, or `0`). -/
def valueAt (l : List ValueSection) (p : Nat) : ℚ :=
  (l.map (fun v => if v.start ≤ p ∧ p < v.«end» then v.value else 0)).sum

theorem valueAt_nil (p : Nat) : valueAt [] p = 0 := rfl

theorem valueAt_cons (v : ValueSection) (l : List ValueSection) (p : Nat) :
    valueAt (v :: l) p = (if v.start ≤ p ∧ p < v.«end» then v.value else 0) + valueAt l p := by
  simp [valueAt]

theorem valueAt_append (l₁ l₂ : List ValueSection) (p : Nat) :
    valueAt (l₁ ++ l₂) p = valueAt l₁ p + valueAt l₂ p := by
  simp [valueAt]

/-- A well-formed interval list (used both for source streams and for the
merge queue): every interval is non-degenerate and consecutive intervals are
disjoint and in start order. -/
def WFlist (l : List ValueSection) : Prop :=
  (∀ v ∈ l, v.start < v.«end») ∧ l.Chain' (fun u v => u.«end» ≤ v.start)

/-- Every overhang produced by `merge_into` spans `[one.end, two.end)`; in
particular its `start` is strictly greater than `two.start` (the start of the
incoming interval that produced it) and its width is strictly smaller than the
width of the incoming interval.  This is the measure that makes the overhang
reinsertion loop terminate. -/
theorem mergeInto_overhang {one two p s t ov}
    (h : mergeInto one two = some (p, s, t, some ov)) :
    ov.start = one.«end» ∧ ov.«end» = two.«end» ∧ two.start < one.«end» ∧
      one.«end» < two.«end» := by
  unfold mergeInto at h
  split_ifs at h <;>
    simp only [Option.some.injEq, Prod.mk.injEq, reduceCtorEq, and_false, false_and] at h
  all_goals obtain ⟨h1, h2, h3, h4⟩ := h
  all_goals subst h4
  all_goals exact ⟨rfl, rfl, by omega, by omega⟩

/-- `merge_into` does not panic whenever its documented precondition
`one.end > two.start` holds. -/
theorem mergeInto_isSome {one two : ValueSection} (h1 : two.start < one.«end») :
    (mergeInto one two).isSome := by
  unfold mergeInto
  split_ifs <;> first | rfl | (exfalso; omega)

/-- Pointwise correctness of the splitter: under a true two-sided overlap, the
intervals it returns (overhang included) carry, at every position, the same
total value as the two inputs. -/
theorem mergeInto_pointwise {one two : ValueSection} {r}
    (hne1 : one.start < one.«end») (hne2 : two.start < two.«end»)
    (h1 : two.start < one.«end») (h2 : one.start < two.«end»)
    (h : mergeInto one two = some r) (p : Nat) :
    valueAt (pieces r) p = valueAt [one, two] p := by
  unfold mergeInto at h
  split_ifs at h <;>
    simp only [Option.some.injEq] at h
  all_goals subst h
  all_goals
    simp only [pieces, valueAt, Option.toList, List.map, List.sum_cons, List.sum_nil,
      List.append_nil, List.nil_append, List.map_cons, List.map_nil, List.map_append,
      List.sum_append, List.cons_append, List.singleton_append]
  all_goals split_ifs <;> first
    | ring1
    | (exfalso; omega)
    | (simp_all <;> ring1)

/-- Geometric shape of a `merge_into` result under a true two-sided overlap of
two non-degenerate intervals: all produced intervals (overhang included) are
non-degenerate and they are listed in disjoint increasing order. -/
theorem mergeInto_shape {one two : ValueSection} {r}
    (hne1 : one.start < one.«end») (hne2 : two.start < two.«end»)
    (h1 : two.start < one.«end») (h2 : one.start < two.«end»)
    (h : mergeInto one two = some r) :
    (∀ v ∈ pieces r, v.start < v.«end») ∧
    (pieces r).Chain' (fun u v => u.«end» ≤ v.start) := by
  unfold mergeInto at h
  split_ifs at h <;>
    simp only [Option.some.injEq] at h
  all_goals subst h
  all_goals
    simp only [pieces, Option.toList, List.cons_append, List.nil_append,
      List.append_nil, List.mem_cons, List.mem_singleton, List.not_mem_nil, or_false,
      List.chain'_cons, List.chain'_singleton, List.chain'_nil, and_true, true_and,
      forall_eq_or_imp, forall_eq]
  all_goals omega

/-- The scan of `ValueSectionIter::next` over the queue (the
`for (idx, queued) in queue.iter_mut().enumerate()` loops at lines 373 and
401 of `bigwigmerge.rs`): walk the queue from the front; return the first element
not wholly left of the incoming interval, together with the queue parts
before and after it, and whether the incoming interval is wholly left of it
(`true` = pure insertion before it, `false` = genuine overlap). -/
def findSpot (queue : List ValueSection) (o : ValueSection) :
    Option (List ValueSection × ValueSection × List ValueSection × Bool) :=
  match queue with
  | [] => none
  | q :: rest =>
    if o.«end» ≤ q.start then some ([], q, rest, true)
    else if q.«end» ≤ o.start then
      match findSpot rest o with
      | none => none
      | some (b, h, a, fl) => some (q :: b, h, a, fl)
    else some ([], q, rest, false)

/-- The fast-path test of the insertion procedure (line 370 / line 398):
the queue is empty, or the incoming interval starts at or after the end of
the last queued interval. -/
def canAppend (queue : List ValueSection) (o : ValueSection) : Bool :=
  match queue.getLast? with
  | none => true
  | some last => last.«end» ≤ o.start

/-- `findSpot` splits the queue around the found element, and every element
of the prefix it skipped lies wholly left of the incoming interval. -/
theorem findSpot_decomp {queue : List ValueSection} {o b hit a fl}
    (h : findSpot queue o = some (b, hit, a, fl)) :
    queue = b ++ hit :: a ∧ ∀ x ∈ b, x.«end» ≤ o.start := by
  induction queue generalizing b with
  | nil => simp [findSpot] at h
  | cons q rest ih =>
    unfold findSpot at h
    split_ifs at h with h1 h2
    · simp only [Option.some.injEq, Prod.mk.injEq] at h
      obtain ⟨rfl, rfl, rfl, rfl⟩ := h
      simp
    · cases hf : findSpot rest o with
      | none => rw [hf] at h; simp at h
      | some r =>
        obtain ⟨b', hit', a', fl'⟩ := r
        rw [hf] at h
        simp only [Option.some.injEq, Prod.mk.injEq] at h
        obtain ⟨rfl, rfl, rfl, rfl⟩ := h
        obtain ⟨hq, hb⟩ := ih hf
        refine ⟨by simp [hq], ?_⟩
        intro x hx
        rcases List.mem_cons.mp hx with rfl | hx
        · exact h2
        · exact hb x hx
    · simp only [Option.some.injEq, Prod.mk.injEq] at h
      obtain ⟨rfl, rfl, rfl, rfl⟩ := h
      simp

/-- When `findSpot` reports a genuine overlap, the found element and the
incoming interval overlap on both sides. -/
theorem findSpot_merge_overlap {queue : List ValueSection} {o b hit a}
    (h : findSpot queue o = some (b, hit, a, false)) :
    o.start < hit.«end» ∧ hit.start < o.«end» := by
  induction queue generalizing b with
  | nil => simp [findSpot] at h
  | cons q rest ih =>
    unfold findSpot at h
    split_ifs at h with h1 h2
    · simp_all
    · cases hf : findSpot rest o with
      | none => rw [hf] at h; simp at h
      | some r =>
        obtain ⟨b', hit', a', fl'⟩ := r
        rw [hf] at h
        simp only [Option.some.injEq, Prod.mk.injEq] at h
        obtain ⟨-, h3, h4, h5⟩ := h
        subst h3; subst h4; subst h5
        exact ih hf
    · simp only [Option.some.injEq, Prod.mk.injEq] at h
      obtain ⟨-, h3, -, -⟩ := h
      subst h3
      omega

/-- If `findSpot` finds nothing, every queue element lies wholly left of the
incoming interval. -/
theorem findSpot_none {queue : List ValueSection} {o}
    (h : findSpot queue o = none) : ∀ x ∈ queue, x.«end» ≤ o.start := by
  induction queue with
  | nil => simp
  | cons q rest ih =>
    unfold findSpot at h
    split_ifs at h with h1 h2
    · cases hf : findSpot rest o with
      | none =>
        intro x hx
        rcases List.mem_cons.mp hx with rfl | hx
        · exact h2
        · exact ih hf x hx
      | some r => obtain ⟨b', hit', a', fl'⟩ := r; rw [hf] at h; simp at h

/-- The insertion procedure of `ValueSectionIter::next` (lines 370–431 and the
overhang loop at lines 394–427 of `bigwigmerge.rs`): append when the incoming
interval is right of the whole queue; otherwise scan for the first interacting
queue element; insert before it when disjoint, otherwise replace it by the
`merge_into` pieces (second and third are inserted just after the primary) and
reinsert the overhang, if any, by repeating the whole procedure.  The two dead
branches (`findSpot` or `mergeInto` yielding nothing) correspond to the
`unreachable!()` at line 430 and to `merge_into`'s panic; both are provably
not taken (`findSpot_none` contradicts the failed fast path, and
`mergeInto_isSome` applies by `findSpot_merge_overlap`). -/
def insertVal (queue : List ValueSection) (o : ValueSection) : List ValueSection :=
  if canAppend queue o then queue ++ [o]
  else
    match findSpot queue o with
    | none => queue
    | some (before, hit, after, true) => before ++ o :: hit :: after
    | some (before, hit, after, false) =>
      match h : mergeInto hit o with
      | none => queue
      | some (one, twoP, threeP, none) =>
          before ++ one :: (twoP.toList ++ threeP.toList ++ after)
      | some (one, twoP, threeP, some ov) =>
          insertVal (before ++ one :: (twoP.toList ++ threeP.toList ++ after)) ov
termination_by o.«end» - o.start
decreasing_by
  have := mergeInto_overhang h
  omega

/-- If the fast path was not taken, the scan cannot fall off the end of the
queue: the `unreachable!()` at line 430 of `bigwigmerge.rs` is indeed
unreachable, and the overhang loop never silently drops its interval. -/
theorem findSpot_some_of_not_canAppend {queue : List ValueSection} {o}
    (h : canAppend queue o = false) : findSpot queue o ≠ none := by
  intro hn
  unfold canAppend at h
  cases hl : queue.getLast? with
  | none => rw [hl] at h; simp at h
  | some last =>
    rw [hl] at h
    simp only [decide_eq_false_iff_not] at h
    obtain ⟨hne, rfl⟩ := List.mem_getLast?_eq_getLast (by simp [hl] : last ∈ queue.getLast?)
    exact h (findSpot_none hn _ (List.getLast_mem hne))

theorem insertVal_eq_append {queue : List ValueSection} {o}
    (h : canAppend queue o = true) : insertVal queue o = queue ++ [o] := by
  unfold insertVal
  simp [h]

theorem insertVal_eq_insert {queue : List ValueSection} {o b hit a}
    (h1 : canAppend queue o = false) (h2 : findSpot queue o = some (b, hit, a, true)) :
    insertVal queue o = b ++ o :: hit :: a := by
  unfold insertVal
  simp [h1, h2]

theorem insertVal_eq_merge_none {queue : List ValueSection} {o b hit a one twoP threeP}
    (h1 : canAppend queue o = false) (h2 : findSpot queue o = some (b, hit, a, false))
    (h3 : mergeInto hit o = some (one, twoP, threeP, none)) :
    insertVal queue o = b ++ one :: (twoP.toList ++ threeP.toList ++ a) := by
  conv_lhs => rw [insertVal.eq_def]
  rw [if_neg (by simp [h1])]
  simp only [h2]
  split <;> simp_all

theorem insertVal_eq_merge_ov {queue : List ValueSection} {o b hit a one twoP threeP ov}
    (h1 : canAppend queue o = false) (h2 : findSpot queue o = some (b, hit, a, false))
    (h3 : mergeInto hit o = some (one, twoP, threeP, some ov)) :
    insertVal queue o = insertVal (b ++ one :: (twoP.toList ++ threeP.toList ++ a)) ov := by
  conv_lhs => rw [insertVal.eq_def]
  rw [if_neg (by simp [h1])]
  simp only [h2]
  split <;> simp_all

/-- Any element of the list that replaces `hit` in the queue during a merge
step is either an element of the old queue or one of the `merge_into`
pieces. -/
theorem mem_merge_result {b a : List ValueSection} {hit one : ValueSection}
    {twoP threeP ovP : Option ValueSection} {v : ValueSection}
    (hv : v ∈ b ++ one :: (twoP.toList ++ threeP.toList ++ a)) :
    v ∈ b ++ hit :: a ∨ v ∈ pieces (one, twoP, threeP, ovP) := by
  simp only [pieces, List.mem_append, List.mem_cons, Option.mem_toList, Option.mem_def] at hv ⊢
  tauto

/-- The overhang is one of the pieces. -/
theorem ov_mem_pieces {one : ValueSection} {twoP threeP : Option ValueSection}
    {ov : ValueSection} : ov ∈ pieces (one, twoP, threeP, some ov) := by
  simp [pieces]

/-- Inserting a non-degenerate interval into a queue of non-degenerate
intervals leaves every queue element non-degenerate. -/
theorem insertVal_nonempty (queue : List ValueSection) (o : ValueSection) :
    (∀ v ∈ queue, v.start < v.«end») → o.start < o.«end» →
    ∀ v ∈ insertVal queue o, v.start < v.«end» := by
  induction queue, o using insertVal.induct with
  | case1 queue o hca =>
    intro hq ho v hv
    rw [insertVal_eq_append hca] at hv
    rcases List.mem_append.mp hv with hv | hv
    · exact hq v hv
    · rw [List.mem_singleton] at hv; subst hv; exact ho
  | case2 queue o hca hfs =>
    intro hq ho
    exact absurd hfs (findSpot_some_of_not_canAppend (by simpa using hca))
  | case3 queue o hca b hit a hfs =>
    intro hq ho v hv
    have hca' : canAppend queue o = false := by simpa using hca
    rw [insertVal_eq_insert hca' hfs] at hv
    obtain ⟨hdec, -⟩ := findSpot_decomp hfs
    subst hdec
    simp only [List.mem_append, List.mem_cons] at hv hq
    rcases hv with hv | rfl | rfl | hv
    · exact hq v (Or.inl hv)
    · exact ho
    · exact hq v (Or.inr (Or.inl rfl))
    · exact hq v (Or.inr (Or.inr hv))
  | case4 queue o hca b hit a hfs h3 =>
    intro hq ho
    have hover := findSpot_merge_overlap hfs
    have := @mergeInto_isSome hit o hover.1
    rw [h3] at this
    simp at this
  | case5 queue o hca b hit a hfs one twoP threeP h3 =>
    intro hq ho v hv
    have hca' : canAppend queue o = false := by simpa using hca
    rw [insertVal_eq_merge_none hca' hfs h3] at hv
    obtain ⟨hdec, -⟩ := findSpot_decomp hfs
    subst hdec
    have hhit : hit.start < hit.«end» := hq hit (by simp)
    have hover := findSpot_merge_overlap hfs
    have hshape := (mergeInto_shape hhit ho hover.1 hover.2 h3).1
    rcases @mem_merge_result b a hit one twoP threeP none v hv with hv | hv
    · exact hq v hv
    · exact hshape v hv
  | case6 queue o hca b hit a hfs one twoP threeP ov h3 ih =>
    intro hq ho
    have hca' : canAppend queue o = false := by simpa using hca
    rw [insertVal_eq_merge_ov hca' hfs h3]
    obtain ⟨hdec, -⟩ := findSpot_decomp hfs
    subst hdec
    have hhit : hit.start < hit.«end» := hq hit (by simp)
    have hover := findSpot_merge_overlap hfs
    have hshape := (mergeInto_shape hhit ho hover.1 hover.2 h3).1
    refine ih ?_ ?_
    · intro v hv
      rcases @mem_merge_result b a hit one twoP threeP (some ov) v hv with hv | hv
      · exact hq v hv
      · exact hshape v hv
    · exact hshape ov ov_mem_pieces

/-- Inserting an interval adds exactly its pointwise contribution to the
queue, at every position.  (Nonemptiness of all intervals involved is needed:
the zero-value absorption branches of `merge_into` are only sound for
non-degenerate intervals.) -/
theorem insertVal_pointwise (queue : List ValueSection) (o : ValueSection) (p : Nat) :
    (∀ v ∈ queue, v.start < v.«end») → o.start < o.«end» →
    valueAt (insertVal queue o) p =
      valueAt queue p + (if o.start ≤ p ∧ p < o.«end» then o.value else 0) := by
  induction queue, o using insertVal.induct with
  | case1 queue o hca =>
    intro hq ho
    rw [insertVal_eq_append hca, valueAt_append, valueAt_cons, valueAt_nil, add_zero]
  | case2 queue o hca hfs =>
    intro hq ho
    exact absurd hfs (findSpot_some_of_not_canAppend (by simpa using hca))
  | case3 queue o hca b hit a hfs =>
    intro hq ho
    have hca' : canAppend queue o = false := by simpa using hca
    rw [insertVal_eq_insert hca' hfs]
    obtain ⟨hdec, -⟩ := findSpot_decomp hfs
    subst hdec
    simp only [valueAt_append, valueAt_cons]
    ring
  | case4 queue o hca b hit a hfs h3 =>
    intro hq ho
    have hover := findSpot_merge_overlap hfs
    have := @mergeInto_isSome hit o hover.1
    rw [h3] at this
    simp at this
  | case5 queue o hca b hit a hfs one twoP threeP h3 =>
    intro hq ho
    have hca' : canAppend queue o = false := by simpa using hca
    rw [insertVal_eq_merge_none hca' hfs h3]
    obtain ⟨hdec, -⟩ := findSpot_decomp hfs
    subst hdec
    have hhit : hit.start < hit.«end» := hq hit (by simp)
    have hover := findSpot_merge_overlap hfs
    have hM := mergeInto_pointwise hhit ho hover.1 hover.2 h3 p
    simp only [pieces, valueAt_append, valueAt_cons, valueAt_nil, List.append_nil,
      Option.toList] at hM ⊢
    linarith
  | case6 queue o hca b hit a hfs one twoP threeP ov h3 ih =>
    intro hq ho
    have hca' : canAppend queue o = false := by simpa using hca
    rw [insertVal_eq_merge_ov hca' hfs h3]
    obtain ⟨hdec, -⟩ := findSpot_decomp hfs
    subst hdec
    have hhit : hit.start < hit.«end» := hq hit (by simp)
    have hover := findSpot_merge_overlap hfs
    have hshape := (mergeInto_shape hhit ho hover.1 hover.2 h3).1
    have hM := mergeInto_pointwise hhit ho hover.1 hover.2 h3 p
    have hrec := ih ?_ ?_
    · rw [hrec]
      have hovd := mergeInto_overhang h3
      simp only [pieces, valueAt_append, valueAt_cons, valueAt_nil, List.append_nil,
        Option.toList] at hM ⊢
      linarith
    · intro v hv
      rcases @mem_merge_result b a hit one twoP threeP (some ov) v hv with hv | hv
      · exact hq v hv
      · exact hshape v hv
    · exact hshape ov ov_mem_pieces

/-- Total number of intervals left in the source streams. -/
def totalLen (sections : List (List ValueSection)) : Nat :=
  (sections.map List.length).sum

/-- Pointwise sum, at position `p`, over a collection of source streams. -/
def totalAt (sections : List (List ValueSection)) (p : Nat) : ℚ :=
  (sections.map (fun l => valueAt l p)).sum

theorem totalAt_nil (p : Nat) : totalAt [] p = 0 := rfl

theorem totalAt_cons (l : List ValueSection) (s : List (List ValueSection)) (p : Nat) :
    totalAt (l :: s) p = valueAt l p + totalAt s p := by
  simp [totalAt]

/-- One round of `ValueSectionIter::next` (the `'vals` loop, lines 359–434 of
`bigwigmerge.rs`): pull at most one interval from every source, in order;
each pulled interval updates `earliest_start` (the running minimum of the
pulled starts) and is inserted into the queue.  Returns the advanced sources,
the new queue and the final `earliest_start`. -/
def pullRound : List (List ValueSection) → List ValueSection → Option Nat →
    List (List ValueSection) × List ValueSection × Option Nat
  | [], queue, es => ([], queue, es)
  | [] :: rest, queue, es =>
    let r := pullRound rest queue es
    ([] :: r.1, r.2.1, r.2.2)
  | (v :: vs) :: rest, queue, es =>
    let r := pullRound rest (insertVal queue v)
      (some (match es with | none => v.start | some e => min e v.start))
    (vs :: r.1, r.2.1, r.2.2)

theorem pullRound_sections_le (sections : List (List ValueSection)) (queue es) :
    totalLen (pullRound sections queue es).1 ≤ totalLen sections := by
  induction sections generalizing queue es with
  | nil => simp [pullRound]
  | cons src rest ih =>
    cases src with
    | nil =>
      simp only [pullRound, totalLen, List.map_cons, List.sum_cons, List.length_nil]
      exact Nat.add_le_add_left (ih queue es) 0
    | cons v vs =>
      simp only [pullRound, totalLen, List.map_cons, List.sum_cons, List.length_cons]
      have := ih (insertVal queue v)
        (some (match es with | none => v.start | some e => min e v.start))
      simp only [totalLen] at this
      omega

theorem pullRound_es_mono (sections : List (List ValueSection)) (queue) (x : Nat) :
    ∃ e, (pullRound sections queue (some x)).2.2 = some e ∧ e ≤ x := by
  induction sections generalizing queue x with
  | nil => exact ⟨x, rfl, le_refl x⟩
  | cons src rest ih =>
    cases src with
    | nil => simpa [pullRound] using ih queue x
    | cons v vs =>
      simp only [pullRound]
      obtain ⟨e, he, hle⟩ := ih (insertVal queue v) (min x v.start)
      exact ⟨e, he, le_trans hle (min_le_left _ _)⟩

/-- If some source produced an interval this round, the total remaining
source length strictly decreases. -/
theorem pullRound_progress (sections : List (List ValueSection)) (queue : List ValueSection)
    {e : Nat} (h : (pullRound sections queue none).2.2 = some e) :
    totalLen (pullRound sections queue none).1 < totalLen sections := by
  induction sections generalizing queue with
  | nil => simp [pullRound] at h
  | cons src rest ih =>
    cases src with
    | nil =>
      simp only [pullRound] at h ⊢
      have := ih queue h
      simp only [totalLen, List.map_cons, List.sum_cons, List.length_nil] at this ⊢
      omega
    | cons v vs =>
      simp only [pullRound] at h ⊢
      have hle := pullRound_sections_le rest (insertVal queue v) (some v.start)
      simp only [totalLen, List.map_cons, List.sum_cons, List.length_cons] at hle ⊢
      omega

/-- If no source produced anything (starting from no `earliest_start`),
nothing changed and every source was already exhausted. -/
theorem pullRound_none (sections : List (List ValueSection)) (queue : List ValueSection)
    (h : (pullRound sections queue none).2.2 = none) :
    (pullRound sections queue none).1 = sections ∧
    (pullRound sections queue none).2.1 = queue ∧ ∀ l ∈ sections, l = [] := by
  induction sections generalizing queue with
  | nil => exact ⟨rfl, rfl, by simp⟩
  | cons src rest ih =>
    cases src with
    | nil =>
      simp only [pullRound] at h ⊢
      obtain ⟨hs, hq, hall⟩ := ih queue h
      refine ⟨by rw [hs], hq, ?_⟩
      intro l hl
      rcases List.mem_cons.mp hl with rfl | hl
      · rfl
      · exact hall l hl
    | cons v vs =>
      simp only [pullRound] at h
      obtain ⟨e, he, -⟩ := pullRound_es_mono rest (insertVal queue v) v.start
      rw [he] at h
      simp at h

/-- A round keeps every remaining source interval and every queue interval
non-degenerate. -/
theorem pullRound_nonempty (sections : List (List ValueSection)) (queue : List ValueSection)
    (es : Option Nat) :
    (∀ l ∈ sections, ∀ v ∈ l, v.start < v.«end») →
    (∀ v ∈ queue, v.start < v.«end») →
    (∀ l ∈ (pullRound sections queue es).1, ∀ v ∈ l, v.start < v.«end») ∧
    (∀ v ∈ (pullRound sections queue es).2.1, v.start < v.«end») := by
  induction sections generalizing queue es with
  | nil => exact fun hs hq => ⟨by simp [pullRound], by simpa [pullRound] using hq⟩
  | cons src rest ih =>
    intro hs hq
    cases src with
    | nil =>
      simp only [pullRound]
      obtain ⟨h1, h2⟩ := ih queue es (fun l hl => hs l (List.mem_cons_of_mem _ hl)) hq
      refine ⟨?_, h2⟩
      intro l hl
      rcases List.mem_cons.mp hl with rfl | hl
      · simp
      · exact h1 l hl
    | cons v vs =>
      simp only [pullRound]
      have hv : v.start < v.«end» := hs (v :: vs) (by simp) v (by simp)
      have hq' := insertVal_nonempty queue v hq hv
      obtain ⟨h1, h2⟩ := ih (insertVal queue v) _
        (fun l hl => hs l (List.mem_cons_of_mem _ hl)) hq'
      have hvs : ∀ w ∈ vs, w.start < w.«end» :=
        fun w hw => hs (v :: vs) (by simp) w (List.mem_cons_of_mem _ hw)
      refine ⟨?_, h2⟩
      intro l hl
      rcases List.mem_cons.mp hl with rfl | hl
      · exact hvs
      · exact h1 l hl

/-- A round moves pointwise mass from the sources into the queue without
creating or destroying any: at every position, queue plus remaining sources
is invariant. -/
theorem pullRound_pointwise (sections : List (List ValueSection)) (queue : List ValueSection)
    (es : Option Nat) (p : Nat) :
    (∀ l ∈ sections, ∀ v ∈ l, v.start < v.«end») →
    (∀ v ∈ queue, v.start < v.«end») →
    valueAt (pullRound sections queue es).2.1 p + totalAt (pullRound sections queue es).1 p
      = valueAt queue p + totalAt sections p := by
  induction sections generalizing queue es with
  | nil => intro hs hq; simp [pullRound]
  | cons src rest ih =>
    intro hs hq
    cases src with
    | nil =>
      simp only [pullRound, totalAt_cons, valueAt_nil]
      have := ih queue es (fun l hl => hs l (List.mem_cons_of_mem _ hl)) hq
      linarith
    | cons v vs =>
      simp only [pullRound, totalAt_cons, valueAt_cons]
      have hv : v.start < v.«end» := hs (v :: vs) (by simp) v (by simp)
      have hq' := insertVal_nonempty queue v hq hv
      have hrec := ih (insertVal queue v)
        (some (match es with | none => v.start | some e => min e v.start))
        (fun l hl => hs l (List.mem_cons_of_mem _ hl)) hq'
      have hins := insertVal_pointwise queue v p hq hv
      linarith

/-- The breathing loop of `ValueSectionIter::next` (lines 356–461 of
`bigwigmerge.rs`), unrolled over the whole life of the iterator: run rounds;
after a round with `earliest_start = Some e`, the maximal queue prefix of
intervals ending at or before `e` is emitted (the drain at lines 440–455);
when a round pulls nothing, the whole queue is emitted and the stream ends
(lines 435–439).  The list produced here is the concatenation of everything
the Rust iterator ever yields: the `out`/`buffer` chunking of the iterator
only batches these same intervals. -/
def mergeLoop (sections : List (List ValueSection)) (queue : List ValueSection) :
    List ValueSection :=
  match hpr : pullRound sections queue none with
  | (_, queue', none) => queue'
  | (sections', queue', some e) =>
      queue'.takeWhile (fun f => f.«end» ≤ e) ++
        mergeLoop sections' (queue'.dropWhile (fun f => f.«end» ≤ e))
termination_by totalLen sections
decreasing_by
  have h2 : (pullRound sections queue none).2.2 = some e := by rw [hpr]
  have h3 := pullRound_progress sections queue h2
  rw [hpr] at h3
  exact h3

/-- `merge_sections_many` (lines 464–470 of `bigwigmerge.rs`): start the
merging iterator with an empty queue. -/
def mergeSectionsMany (sections : List (List ValueSection)) : List ValueSection :=
  mergeLoop sections []

theorem mergeLoop_eq_none {sections : List (List ValueSection)} {queue s' q'}
    (hpr : pullRound sections queue none = (s', q', none)) :
    mergeLoop sections queue = q' := by
  conv_lhs => rw [mergeLoop.eq_def]
  split <;> simp_all

theorem mergeLoop_eq_step {sections : List (List ValueSection)} {queue s' q' e}
    (hpr : pullRound sections queue none = (s', q', some e)) :
    mergeLoop sections queue =
      q'.takeWhile (fun f => f.«end» ≤ e) ++
        mergeLoop s' (q'.dropWhile (fun f => f.«end» ≤ e)) := by
  conv_lhs => rw [mergeLoop.eq_def]
  split <;> simp_all

theorem totalAt_eq_zero {sections : List (List ValueSection)} {p : Nat}
    (h : ∀ l ∈ sections, l = []) : totalAt sections p = 0 := by
  induction sections with
  | nil => rfl
  | cons l rest ih =>
    rw [totalAt_cons, h l (by simp), valueAt_nil, zero_add]
    exact ih fun l hl => h l (List.mem_cons_of_mem _ hl)

/-- The merging loop emits, at every position, exactly the mass of the queue
plus the mass of the sources. -/
theorem mergeLoop_pointwise (sections : List (List ValueSection)) (queue : List ValueSection)
    (p : Nat) :
    (∀ l ∈ sections, ∀ v ∈ l, v.start < v.«end») →
    (∀ v ∈ queue, v.start < v.«end») →
    valueAt (mergeLoop sections queue) p = valueAt queue p + totalAt sections p := by
  induction sections, queue using mergeLoop.induct with
  | case1 sections queue s' q' hpr =>
    intro hs hq
    rw [mergeLoop_eq_none hpr]
    obtain ⟨hse, hqe, hall⟩ := pullRound_none sections queue (by rw [hpr])
    rw [hpr] at hse hqe
    simp only at hse hqe
    rw [hqe, totalAt_eq_zero hall, add_zero]
  | case2 sections queue s' q' e hpr ih =>
    intro hs hq
    rw [mergeLoop_eq_step hpr]
    have hpn := pullRound_nonempty sections queue none hs hq
    rw [hpr] at hpn
    simp only at hpn
    have hpp := pullRound_pointwise sections queue none p hs hq
    rw [hpr] at hpp
    simp only at hpp
    have hdq : ∀ v ∈ q'.dropWhile (fun f => f.«end» ≤ e), v.start < v.«end» :=
      fun v hv => hpn.2 v ((List.dropWhile_sublist _).subset hv)
    rw [valueAt_append, ih hpn.1 hdq]
    have hsplit : valueAt (q'.takeWhile (fun f => f.«end» ≤ e)) p
        + valueAt (q'.dropWhile (fun f => f.«end» ≤ e)) p = valueAt q' p := by
      rw [← valueAt_append, List.takeWhile_append_dropWhile]
    linarith

/-- Single-source invariant of the merging loop: if the last emitted-so-far
interval `v` sits alone in the queue and `v :: src` is well formed, the loop
emits exactly `v :: src`. -/
theorem mergeLoop_single (src : List ValueSection) (v : ValueSection)
    (h : WFlist (v :: src)) : mergeLoop [src] [v] = v :: src := by
  induction src generalizing v with
  | nil =>
    have hpr : pullRound [([] : List ValueSection)] [v] none = ([[]], [v], none) := rfl
    rw [mergeLoop_eq_none hpr]
  | cons w ws ih =>
    obtain ⟨hne, hch⟩ := h
    obtain ⟨hvw, hch'⟩ := List.chain'_cons.mp hch
    have hv : v.start < v.«end» := hne v (by simp)
    have hw : w.start < w.«end» := hne w (by simp)
    have hins : insertVal [v] w = [v, w] := by
      rw [insertVal_eq_append (by simp [canAppend, hvw])]
      rfl
    have hpr : pullRound [w :: ws] [v] none = ([ws], [v, w], some w.start) := by
      simp [pullRound, hins]
    rw [mergeLoop_eq_step hpr]
    have htake : List.takeWhile (fun f => f.«end» ≤ w.start) [v, w] = [v] := by
      simp [List.takeWhile_cons, hvw]
      omega
    have hdrop : List.dropWhile (fun f => f.«end» ≤ w.start) [v, w] = [w] := by
      simp [List.dropWhile_cons, hvw]
      omega
    rw [htake, hdrop, ih w ⟨fun x hx => hne x (List.mem_cons_of_mem _ hx), hch'⟩]
    rfl

/-- `merge_sections_many` on a single well-formed source is the identity. -/
theorem mergeSectionsMany_single (src : List ValueSection) (h : WFlist src) :
    mergeSectionsMany [src] = src := by
  cases src with
  | nil =>
    have hpr : pullRound [([] : List ValueSection)] [] none = ([[]], [], none) := rfl
    rw [mergeSectionsMany, mergeLoop_eq_none hpr]
  | cons v vs =>
    have hv : v.start < v.«end» := h.1 v (by simp)
    have hins : insertVal [] v = [v] := by
      rw [insertVal_eq_append (by simp [canAppend])]
      rfl
    have hpr : pullRound [v :: vs] [] none = ([vs], [v], some v.start) := by
      simp [pullRound, hins]
    rw [mergeSectionsMany, mergeLoop_eq_step hpr]
    have htake : List.takeWhile (fun f => f.«end» ≤ v.start) [v] = [] := by
      simp [List.takeWhile_cons]
      omega
    have hdrop : List.dropWhile (fun f => f.«end» ≤ v.start) [v] = [v] := by
      simp [List.dropWhile_cons]
      omega
    rw [htake, hdrop, mergeLoop_single vs v h]
    rfl

/-- One entry of a bigWig file's chromosome table (`get_chroms` item):
a name and a declared length. -/
structure ChromInfo where
  name : String
  length : Nat
deriving DecidableEq, Repr

/-- The errors surfaced by the merge driver.  `get_merged_values` returns an
`io::Error` with the message `"Invalid input (nonmatching chroms)"`; the spec
calls this condition `MetadataConflict`. -/
inductive MergeError where
  | metadataConflict
deriving DecidableEq, Repr

/-- The declared lengths of chromosome `chrom`, one per input file containing
it, in file order (lines 480–487 of `bigwigmerge.rs`: per file, `find` the
chromosome entry, keep its length, `filter_map` the misses away). -/
def sizesFor (bigwigs : List (List ChromInfo)) (chrom : String) : List Nat :=
  bigwigs.filterMap (fun w => (w.find? (fun c => c.name = chrom)).map (fun c => c.length))

/-- All chromosome names declared by all inputs, with repetitions, in file
order (`bigwigs.iter().flat_map(get_chroms).map(|c| c.name)`, line 476). -/
def allChromNames (bigwigs : List (List ChromInfo)) : List String :=
  (bigwigs.map (fun w => w.map (fun c => c.name))).flatten

/-- The verification loop of `get_merged_values` (lines 476–495 of
`bigwigmerge.rs`): for each declared chromosome name not already checked,
collect the declared lengths across files and require them all equal to the
first; on disagreement fail immediately, before any interval is produced. -/
def checkChromSizes (bigwigs : List (List ChromInfo)) :
    List String → List (String × Nat) → Except MergeError (List (String × Nat))
  | [], acc => .ok acc
  | chrom :: rest, acc =>
    if (acc.find? (fun kv => kv.1 = chrom)).isSome then
      checkChromSizes bigwigs rest acc
    else
      if (sizesFor bigwigs chrom).all (fun s => s = (sizesFor bigwigs chrom).headD 0) then
        checkChromSizes bigwigs rest ((chrom, (sizesFor bigwigs chrom).headD 0) :: acc)
      else
        .error .metadataConflict

/-- The metadata-checking phase of `get_merged_values` (lines 472–495).  The
construction of the per-chromosome merged streams happens strictly after this
check succeeds, so an error here is raised before any interval is emitted. -/
def getMergedValuesCheck (bigwigs : List (List ChromInfo)) :
    Except MergeError (List (String × Nat)) :=
  checkChromSizes bigwigs (allChromNames bigwigs) []

/-- All declared lengths of `chrom` across the inputs agree (with the first
one, hence pairwise). -/
def sizesAgree (bigwigs : List (List ChromInfo)) (chrom : String) : Prop :=
  ∀ s ∈ sizesFor bigwigs chrom, s = (sizesFor bigwigs chrom).headD 0

/-- If the checking loop succeeds, every name it visited has agreeing sizes
(accumulator entries are only created after a successful check). -/
theorem checkChromSizes_ok {bigwigs : List (List ChromInfo)} {names : List String}
    {acc : List (String × Nat)} {m : List (String × Nat)}
    (hacc : ∀ kv ∈ acc, sizesAgree bigwigs kv.1)
    (h : checkChromSizes bigwigs names acc = .ok m) :
    ∀ n ∈ names, sizesAgree bigwigs n := by
  induction names generalizing acc with
  | nil => simp
  | cons c rest ih =>
    unfold checkChromSizes at h
    split_ifs at h with h1 h2
    · intro n hn
      rcases List.mem_cons.mp hn with rfl | hn
      · obtain ⟨kv, hkv, hp⟩ := List.find?_isSome.mp h1
        have : kv.1 = n := by simpa using hp
        exact this ▸ hacc kv hkv
      · exact ih hacc h n hn
    · intro n hn
      have hc : sizesAgree bigwigs c := by
        intro s hs
        have := List.all_eq_true.mp h2 s hs
        simpa using this
      rcases List.mem_cons.mp hn with rfl | hn
      · exact hc
      · refine ih ?_ h n hn
        intro kv hkv
        rcases List.mem_cons.mp hkv with rfl | hkv
        · exact hc
        · exact hacc kv hkv

/-- A pairwise-agreement hypothesis gives agreement with the head. -/
theorem sizesAgree_of_pairwise {bigwigs : List (List ChromInfo)} {chrom : String}
    (h : ∀ s1 ∈ sizesFor bigwigs chrom, ∀ s2 ∈ sizesFor bigwigs chrom, s1 = s2) :
    sizesAgree bigwigs chrom := by
  intro s hs
  cases hsz : sizesFor bigwigs chrom with
  | nil => rw [hsz] at hs; simp at hs
  | cons a l =>
    rw [hsz] at hs h
    exact h s hs a (by simp)

/-- A file handle as the buffer sees it: its byte contents and the current
read/write position (`seek`/`write`/`copy` act relative to `pos`). -/
structure FileM where
  content : List Nat
  pos : Nat
deriving DecidableEq, Repr

/-- `file.seek(SeekFrom::Start(0))`. -/
def seekStart (f : FileM) : FileM :=
  { content := f.content, pos := 0 }

/-- Write a byte string at the current position (overwriting, then extending)
and advance the position, as a `Write` implementation does. -/
def writeBytes (f : FileM) (bs : List Nat) : FileM :=
  { content := f.content.take f.pos ++ bs ++ f.content.drop (f.pos + bs.length),
    pos := f.pos + bs.length }

/-- `std::io::copy(src, dst)`: stream the bytes of `src` from its current
position to its end into `dst` at `dst`'s current position. -/
def copyInto (src dst : FileM) : FileM :=
  writeBytes dst (src.content.drop src.pos)

/-- `BufferState` of `tempfilebuffer.rs` (lines 6–10).  In Rust the payload is
an `Option<File>` solely so that `await_file`/`await_raw` can move the handle
out while consuming the owner; through the `switch` API the payload is always
present, so the state is modelled as holding the file directly. -/
inductive BufferState where
  | temp (spill : FileM)
  | real (file : FileM)
deriving DecidableEq, Repr

/-- The panic `"Already switched!"` of `TempFileBuffer::switch` (line 68),
which the spec names `InvalidState`. -/
inductive BufferError where
  | invalidState
deriving DecidableEq, Repr

/-- `TempFileBuffer::switch` (lines 49–70 of `tempfilebuffer.rs`): in `Temp`
state, rewind the spill file, copy its contents into the new file and become
`Real` over the new file; in `Real` state, panic (`InvalidState`). -/
def switch (state : BufferState) (newFile : FileM) : Except BufferError BufferState :=
  match state with
  | .temp spill => .ok (.real (copyInto (seekStart spill) newFile))
  | .real _ => .error .invalidState

/-- In a disjoint chain of non-degenerate intervals, the head's end bounds
every later start. -/
theorem chain_head_le {a : ValueSection} {l : List ValueSection}
    (hne : ∀ v ∈ l, v.start < v.«end»)
    (hch : (a :: l).Chain' (fun u v => u.«end» ≤ v.start)) :
    ∀ b ∈ l, a.«end» ≤ b.start := by
  induction l generalizing a with
  | nil => simp
  | cons c l ih =>
    obtain ⟨hac, hch'⟩ := List.chain'_cons.mp hch
    intro b hb
    rcases List.mem_cons.mp hb with rfl | hb
    · exact hac
    · have hc : c.start < c.«end» := hne c (by simp)
      have := ih (fun v hv => hne v (List.mem_cons_of_mem _ hv)) hch' b hb
      omega

/-- A disjoint chain of non-degenerate intervals is pairwise disjoint. -/
theorem chain_disjoint_pairwise {l : List ValueSection}
    (hne : ∀ v ∈ l, v.start < v.«end»)
    (hch : l.Chain' (fun u v => u.«end» ≤ v.start)) :
    l.Pairwise (fun u v => u.«end» ≤ v.start) := by
  induction l with
  | nil => exact List.Pairwise.nil
  | cons a l ih =>
    refine List.pairwise_cons.mpr ⟨?_, ?_⟩
    · exact chain_head_le (fun v hv => hne v (List.mem_cons_of_mem _ hv)) hch
    · exact ih (fun v hv => hne v (List.mem_cons_of_mem _ hv)) (List.Chain'.tail hch)

/-- **C1.**  For every collection of source interval streams, each sorted by
`start` and internally non-overlapping, the output stream of
`merge_sections_many` has at every genomic position a pointwise value equal to
the sum over all sources of that source's value at that position, with absence
of coverage counted as `0`. -/
theorem claim_C1_pointwise_sum (sections : List (List ValueSection))
    (h : ∀ src ∈ sections, WFlist src) (p : Nat) :
    valueAt (mergeSectionsMany sections) p
      = (sections.map (fun src => valueAt src p)).sum := by
  have hml := mergeLoop_pointwise sections [] p (fun l hl => (h l hl).1) (by simp)
  rw [mergeSectionsMany, hml, valueAt_nil, zero_add]
  rfl

/-- Witness for C1 at a concrete input. -/
theorem claim_C1_witness :
    (∀ src ∈ [[(⟨0, 2, 1⟩ : ValueSection)], [⟨1, 3, 2⟩]], WFlist src) ∧
    valueAt (mergeSectionsMany [[(⟨0, 2, 1⟩ : ValueSection)], [⟨1, 3, 2⟩]]) 1
      = ([[(⟨0, 2, 1⟩ : ValueSection)], [⟨1, 3, 2⟩]].map (fun src => valueAt src 1)).sum :=
  ⟨by simp [WFlist], claim_C1_pointwise_sum [[⟨0, 2, 1⟩], [⟨1, 3, 2⟩]] (by simp [WFlist]) 1⟩

/-- **C2** (code bug).  The claim states that consecutive emitted intervals
satisfy `o[i].end ≤ o[i+1].start` and that the queue keeps
`q[i].end ≤ q[i+1].start` after every insertion.  The code violates both.
With the three well-formed single-interval sources `[5,10)=0`, `[10,20)=1`
and `[3,12)=1`, inserting `[3,12)=1` hits the `one.start > two.start`,
`one.end < two.end`, `one.value == 0` branch of `merge_into` (lines 240–249
of `bigwigmerge.rs`), which replaces the zero-valued queue resident by the
incoming interval wholesale, without checking the queue entries to its right
and without producing an overhang; the queue becomes
`[[3,12)=1, [10,20)=1]` and the final output `[3,12)=1, [10,20)=1`
has `12 > 10`. -/
theorem claim_C2_output_overlap_bug :
    (∀ src ∈ [[(⟨5, 10, 0⟩ : ValueSection)], [⟨10, 20, 1⟩], [⟨3, 12, 1⟩]], WFlist src) ∧
    mergeSectionsMany [[(⟨5, 10, 0⟩ : ValueSection)], [⟨10, 20, 1⟩], [⟨3, 12, 1⟩]]
      = [⟨3, 12, 1⟩, ⟨10, 20, 1⟩] ∧
    ¬ (mergeSectionsMany [[(⟨5, 10, 0⟩ : ValueSection)], [⟨10, 20, 1⟩], [⟨3, 12, 1⟩]]).Chain'
        (fun u v => u.«end» ≤ v.start) ∧
    WFlist [⟨5, 10, 0⟩, ⟨10, 20, 1⟩] ∧ (⟨3, 12, 1⟩ : ValueSection).start < (⟨3, 12, 1⟩ : ValueSection).«end» ∧
    ¬ (insertVal [(⟨5, 10, 0⟩ : ValueSection), ⟨10, 20, 1⟩] ⟨3, 12, 1⟩).Chain'
        (fun u v => u.«end» ≤ v.start) := by
  have heval : mergeSectionsMany [[(⟨5, 10, 0⟩ : ValueSection)], [⟨10, 20, 1⟩], [⟨3, 12, 1⟩]]
      = [⟨3, 12, 1⟩, ⟨10, 20, 1⟩] := by
    simp [mergeSectionsMany, mergeLoop, pullRound, insertVal, canAppend, findSpot, mergeInto]
  have hins : insertVal [(⟨5, 10, 0⟩ : ValueSection), ⟨10, 20, 1⟩] ⟨3, 12, 1⟩
      = [⟨3, 12, 1⟩, ⟨10, 20, 1⟩] := by
    simp [insertVal, canAppend, findSpot, mergeInto]
  refine ⟨by simp [WFlist], heval, ?_, by simp [WFlist], by decide, ?_⟩
  · rw [heval]; simp [List.chain'_cons]
  · rw [hins]; simp [List.chain'_cons]

/-- **C3** (counterexample).  The claim's symmetric absorption case fails:
with `one = [0,5)=0` contained in `two = [0,10)=3` (equal starts, smaller
end), `merge_into` does not return `two` alone; it splits `two` into a prefix
carrying `two`'s value and an overhang. -/
theorem claim_C3_counterexample :
    mergeInto ⟨0, 5, 0⟩ ⟨0, 10, 3⟩ = some (⟨0, 5, 3⟩, none, none, some ⟨5, 10, 3⟩) ∧
    mergeInto ⟨0, 5, 0⟩ ⟨0, 10, 3⟩ ≠ some (⟨0, 10, 3⟩, none, none, none) := by
  constructor
  · simp [mergeInto]
  · intro h
    simp [mergeInto] at h

/-- **C3** (amended).  `merge_into(one, two)` returns exactly `one` whenever
`two.value = 0` and `two ⊆ one`; symmetrically it returns exactly `two` alone
when `one.value = 0` and `one ⊆ two`, except in the equal-start proper-prefix
case (`one.start = two.start`, `one.end < two.end`), where it instead returns
the prefix `[one.start, one.end)` valued `two.value` plus the overhang
`[one.end, two.end)` valued `two.value` (pointwise still `two`, but not `two`
alone);  the equal-extent and strictly-later-start containments do return
`two` alone. -/
theorem claim_C3_zero_absorption_amended (one two : ValueSection)
    (hne1 : one.start < one.«end») (hne2 : two.start < two.«end») :
    (two.value = 0 → one.start ≤ two.start → two.«end» ≤ one.«end» →
      mergeInto one two = some (one, none, none, none)) ∧
    (one.value = 0 → two.start < one.start → one.«end» ≤ two.«end» →
      mergeInto one two = some (two, none, none, none)) ∧
    (one.value = 0 → one.start = two.start → one.«end» = two.«end» →
      mergeInto one two = some (two, none, none, none)) ∧
    (one.value = 0 → one.start = two.start → one.«end» < two.«end» →
      mergeInto one two = some (⟨one.start, one.«end», two.value⟩, none, none,
        some ⟨one.«end», two.«end», two.value⟩)) := by
  obtain ⟨s1, e1, v1⟩ := one
  obtain ⟨s2, e2, v2⟩ := two
  simp only at hne1 hne2 ⊢
  refine ⟨?_, ?_, ?_, ?_⟩ <;> intro hz hs he <;> unfold mergeInto <;>
    split_ifs <;> (try dsimp only at *) <;> first
      | (exfalso; omega)
      | simp_all
      | (simp_all; omega)

/-- Witness for the amended C3 at concrete inputs (absorption case). -/
theorem claim_C3_witness :
    (0 : Nat) < 10 ∧ (2 : Nat) < 8 ∧
    mergeInto ⟨0, 10, 1⟩ ⟨2, 8, 0⟩ = some (⟨0, 10, 1⟩, none, none, none) :=
  ⟨by decide, by decide,
    (claim_C3_zero_absorption_amended ⟨0, 10, 1⟩ ⟨2, 8, 0⟩ (by decide) (by decide)).1
      (by norm_num) (by decide) (by decide)⟩

/-- **C4** (counterexample).  Swapping the two well-formed sources
`[[0,5)=0]` and `[[0,10)=2]` changes the multiset of emitted triples:
in one order the zero-valued interval forces a split
(`[0,5)=2, [5,10)=2`), in the other it is absorbed (`[0,10)=2`). -/
theorem claim_C4_counterexample :
    List.Perm [[(⟨0, 5, 0⟩ : ValueSection)], [⟨0, 10, 2⟩]] [[⟨0, 10, 2⟩], [⟨0, 5, 0⟩]] ∧
    (∀ src ∈ [[(⟨0, 5, 0⟩ : ValueSection)], [⟨0, 10, 2⟩]], WFlist src) ∧
    mergeSectionsMany [[(⟨0, 5, 0⟩ : ValueSection)], [⟨0, 10, 2⟩]]
      = [⟨0, 5, 2⟩, ⟨5, 10, 2⟩] ∧
    mergeSectionsMany [[(⟨0, 10, 2⟩ : ValueSection)], [⟨0, 5, 0⟩]] = [⟨0, 10, 2⟩] ∧
    Multiset.ofList (mergeSectionsMany [[(⟨0, 5, 0⟩ : ValueSection)], [⟨0, 10, 2⟩]])
      ≠ Multiset.ofList (mergeSectionsMany [[(⟨0, 10, 2⟩ : ValueSection)], [⟨0, 5, 0⟩]]) := by
  have h1 : mergeSectionsMany [[(⟨0, 5, 0⟩ : ValueSection)], [⟨0, 10, 2⟩]]
      = [⟨0, 5, 2⟩, ⟨5, 10, 2⟩] := by
    simp [mergeSectionsMany, mergeLoop, pullRound, insertVal, canAppend, findSpot, mergeInto]
  have h2 : mergeSectionsMany [[(⟨0, 10, 2⟩ : ValueSection)], [⟨0, 5, 0⟩]] = [⟨0, 10, 2⟩] := by
    simp [mergeSectionsMany, mergeLoop, pullRound, insertVal, canAppend, findSpot, mergeInto]
  refine ⟨List.Perm.swap _ _ _, by simp [WFlist], h1, h2, ?_⟩
  rw [h1, h2]
  intro hmul
  have := congrArg Multiset.card hmul
  simp at this

/-- **C4** (amended).  The multiset of emitted triples is not stable under
permutation of the sources (see the counterexample); what is stable is the
pointwise value of the output: for well-formed sources and any permutation of
them, the two outputs agree at every genomic position. -/
theorem claim_C4_perm_pointwise_amended (s1 s2 : List (List ValueSection))
    (hperm : s1.Perm s2) (h1 : ∀ src ∈ s1, WFlist src) (p : Nat) :
    valueAt (mergeSectionsMany s1) p = valueAt (mergeSectionsMany s2) p := by
  have h2 : ∀ src ∈ s2, WFlist src := fun src hs => h1 src (hperm.mem_iff.mpr hs)
  have e1 := mergeLoop_pointwise s1 [] p (fun l hl => (h1 l hl).1) (by simp)
  have e2 := mergeLoop_pointwise s2 [] p (fun l hl => (h2 l hl).1) (by simp)
  rw [mergeSectionsMany, e1, mergeSectionsMany, e2, valueAt_nil, zero_add, zero_add]
  exact List.Perm.sum_eq (hperm.map _)

/-- Witness for the amended C4 at a concrete permutation. -/
theorem claim_C4_witness :
    List.Perm [[(⟨0, 4, 1⟩ : ValueSection)], [⟨2, 6, 2⟩]] [[⟨2, 6, 2⟩], [⟨0, 4, 1⟩]] ∧
    (∀ src ∈ [[(⟨0, 4, 1⟩ : ValueSection)], [⟨2, 6, 2⟩]], WFlist src) ∧
    valueAt (mergeSectionsMany [[(⟨0, 4, 1⟩ : ValueSection)], [⟨2, 6, 2⟩]]) 3
      = valueAt (mergeSectionsMany [[(⟨2, 6, 2⟩ : ValueSection)], [⟨0, 4, 1⟩]]) 3 :=
  ⟨List.Perm.swap _ _ _, by simp [WFlist],
    claim_C4_perm_pointwise_amended _ _ (List.Perm.swap _ _ _) (by simp [WFlist]) 3⟩

/-- **C5** (counterexample).  The splitter's stated precondition
`one.end > two.start` does not rule out `one` lying entirely to the right of
`two`; there `merge_into` produces a degenerate middle interval
(`[5,3) = 2`) and the pieces are not in genomic order. -/
theorem claim_C5_counterexample :
    (⟨5, 10, 1⟩ : ValueSection).start < (⟨5, 10, 1⟩ : ValueSection).«end» ∧
    (⟨0, 3, 1⟩ : ValueSection).start < (⟨0, 3, 1⟩ : ValueSection).«end» ∧
    (⟨0, 3, 1⟩ : ValueSection).start < (⟨5, 10, 1⟩ : ValueSection).«end» ∧
    mergeInto ⟨5, 10, 1⟩ ⟨0, 3, 1⟩
      = some (⟨0, 5, 1⟩, some ⟨5, 3, 2⟩, some ⟨3, 10, 1⟩, none) ∧
    ¬ (∀ v ∈ pieces (⟨0, 5, 1⟩, some ⟨5, 3, 2⟩, some ⟨3, 10, 1⟩, (none : Option ValueSection)),
        v.start < v.«end») := by
  refine ⟨by decide, by decide, by decide, ?_, ?_⟩
  · simp [mergeInto]
    norm_num
  · intro hall
    have := hall ⟨5, 3, 2⟩ (by simp [pieces])
    simp at this

/-- **C5** (amended).  Under the stated precondition strengthened to a true
two-sided overlap (`two.start < one.end` and `one.start < two.end`) of two
non-degenerate intervals, every interval returned by `merge_into` (overhang
included) satisfies `start < end`, and the returned intervals are pairwise
non-overlapping and listed in increasing genomic order. -/
theorem claim_C5_wellformed_amended (one two : ValueSection) {r}
    (hne1 : one.start < one.«end») (hne2 : two.start < two.«end»)
    (h1 : two.start < one.«end») (h2 : one.start < two.«end»)
    (h : mergeInto one two = some r) :
    (∀ v ∈ pieces r, v.start < v.«end») ∧
    (pieces r).Chain' (fun u v => u.«end» ≤ v.start) ∧
    (pieces r).Pairwise (fun u v => u.«end» ≤ v.start) := by
  have hs := mergeInto_shape hne1 hne2 h1 h2 h
  exact ⟨hs.1, hs.2, chain_disjoint_pairwise hs.1 hs.2⟩

/-- Witness for the amended C5 at a concrete overlapping pair. -/
theorem claim_C5_witness :
    (⟨0, 10, 1⟩ : ValueSection).start < (⟨0, 10, 1⟩ : ValueSection).«end» ∧
    (⟨5, 15, 2⟩ : ValueSection).start < (⟨5, 15, 2⟩ : ValueSection).«end» ∧
    (⟨5, 15, 2⟩ : ValueSection).start < (⟨0, 10, 1⟩ : ValueSection).«end» ∧
    (⟨0, 10, 1⟩ : ValueSection).start < (⟨5, 15, 2⟩ : ValueSection).«end» ∧
    ((∀ v ∈ pieces (⟨0, 5, 1⟩, some ⟨5, 10, 3⟩, none, some ⟨10, 15, 2⟩), v.start < v.«end») ∧
      (pieces (⟨0, 5, 1⟩, some ⟨5, 10, 3⟩, none, some ⟨10, 15, 2⟩)).Chain'
        (fun u v => u.«end» ≤ v.start) ∧
      (pieces (⟨0, 5, 1⟩, some ⟨5, 10, 3⟩, none, some ⟨10, 15, 2⟩)).Pairwise
        (fun u v => u.«end» ≤ v.start)) :=
  ⟨by decide, by decide, by decide, by decide,
    claim_C5_wellformed_amended ⟨0, 10, 1⟩ ⟨5, 15, 2⟩ (by decide) (by decide) (by decide)
      (by decide) (by simp [mergeInto]; norm_num)⟩

/-- **C6.**  For every pair of truly overlapping non-degenerate intervals,
the split pieces with the overhang reinserted (it tiles after the others)
form a non-overlapping set whose pointwise sum at every position equals the
pointwise sum of the two inputs. -/
theorem claim_C6_splitter_closure (one two : ValueSection)
    (hne1 : one.start < one.«end») (hne2 : two.start < two.«end»)
    (hov1 : two.start < one.«end») (hov2 : one.start < two.«end») :
    ∃ r, mergeInto one two = some r ∧
      (pieces r).Chain' (fun u v => u.«end» ≤ v.start) ∧
      (∀ v ∈ pieces r, v.start < v.«end») ∧
      ∀ p, valueAt (pieces r) p = valueAt [one, two] p := by
  obtain ⟨r, hr⟩ := Option.isSome_iff_exists.mp (mergeInto_isSome hov1)
  have hs := mergeInto_shape hne1 hne2 hov1 hov2 hr
  exact ⟨r, hr, hs.2, hs.1, fun p => mergeInto_pointwise hne1 hne2 hov1 hov2 hr p⟩

/-- Witness for C6 at a concrete overlapping pair. -/
theorem claim_C6_witness :
    (⟨2, 8, 1⟩ : ValueSection).start < (⟨2, 8, 1⟩ : ValueSection).«end» ∧
    (⟨4, 12, 5⟩ : ValueSection).start < (⟨4, 12, 5⟩ : ValueSection).«end» ∧
    (⟨4, 12, 5⟩ : ValueSection).start < (⟨2, 8, 1⟩ : ValueSection).«end» ∧
    (⟨2, 8, 1⟩ : ValueSection).start < (⟨4, 12, 5⟩ : ValueSection).«end» ∧
    (∃ r, mergeInto ⟨2, 8, 1⟩ ⟨4, 12, 5⟩ = some r ∧
      (pieces r).Chain' (fun u v => u.«end» ≤ v.start) ∧
      (∀ v ∈ pieces r, v.start < v.«end») ∧
      ∀ p, valueAt (pieces r) p = valueAt [⟨2, 8, 1⟩, ⟨4, 12, 5⟩] p) :=
  ⟨by decide, by decide, by decide, by decide,
    claim_C6_splitter_closure ⟨2, 8, 1⟩ ⟨4, 12, 5⟩ (by decide) (by decide) (by decide) (by decide)⟩

/-- **C7.**  Every overhang produced by `merge_into` starts strictly to the
right of the incoming interval that produced it, and is strictly narrower, so
the overhang-reinsertion loop reaches a fixed point; in this embedding that
measure (`two.end - two.start`) is exactly the termination measure by which
`insertVal` — and with it the whole of `mergeSectionsMany` on finite sources —
is a total function. -/
theorem claim_C7_overhang_progress (one two pr ov : ValueSection)
    (sc th : Option ValueSection)
    (h : mergeInto one two = some (pr, sc, th, some ov)) :
    two.start < ov.start ∧ ov.«end» - ov.start < two.«end» - two.start := by
  have hov := mergeInto_overhang h
  omega

/-- Witness for C7 at a concrete overlapping pair producing an overhang. -/
theorem claim_C7_witness :
    mergeInto ⟨0, 5, 1⟩ ⟨3, 8, 1⟩ = some (⟨0, 3, 1⟩, some ⟨3, 5, 2⟩, none, some ⟨5, 8, 1⟩) ∧
    ((3 : Nat) < 5 ∧ (8 : Nat) - 5 < 8 - 3) :=
  ⟨by simp [mergeInto]; norm_num,
    claim_C7_overhang_progress ⟨0, 5, 1⟩ ⟨3, 8, 1⟩ ⟨0, 3, 1⟩ ⟨5, 8, 1⟩ (some ⟨3, 5, 2⟩) none
      (by simp [mergeInto]; norm_num)⟩

/-- **C8.**  If two input files declare the same chromosome name with
different lengths, the metadata check of `get_merged_values` fails with
`MetadataConflict` (and the function returns before any interval is
produced); if all declared lengths agree wherever a chromosome is shared, no
such error is raised. -/
theorem claim_C8_metadata_conflict (bigwigs : List (List ChromInfo)) :
    ((∃ w1 ∈ bigwigs, ∃ w2 ∈ bigwigs, ∃ n c1 c2,
        w1.find? (fun c => c.name = n) = some c1 ∧
        w2.find? (fun c => c.name = n) = some c2 ∧
        c1.length ≠ c2.length) →
      getMergedValuesCheck bigwigs = .error .metadataConflict) ∧
    ((∀ w1 ∈ bigwigs, ∀ w2 ∈ bigwigs, ∀ n c1 c2,
        w1.find? (fun c => c.name = n) = some c1 →
        w2.find? (fun c => c.name = n) = some c2 →
        c1.length = c2.length) →
      ∃ m, getMergedValuesCheck bigwigs = .ok m) := by
  constructor
  · rintro ⟨w1, hw1, w2, hw2, n, c1, c2, hf1, hf2, hne⟩
    have hn1 : c1.name = n := by simpa using List.find?_some hf1
    have hmem : n ∈ allChromNames bigwigs := by
      rw [allChromNames, List.mem_flatten]
      refine ⟨w1.map (fun c => c.name), List.mem_map_of_mem _ hw1, ?_⟩
      rw [List.mem_map]
      exact ⟨c1, List.mem_of_find?_eq_some hf1, hn1⟩
    have hs1 : c1.length ∈ sizesFor bigwigs n := by
      rw [sizesFor, List.mem_filterMap]
      exact ⟨w1, hw1, by rw [hf1]; rfl⟩
    have hs2 : c2.length ∈ sizesFor bigwigs n := by
      rw [sizesFor, List.mem_filterMap]
      exact ⟨w2, hw2, by rw [hf2]; rfl⟩
    cases hres : getMergedValuesCheck bigwigs with
    | error e => cases e; rfl
    | ok m =>
      exfalso
      have hagree := checkChromSizes_ok (by simp) hres n hmem
      exact hne ((hagree _ hs1).trans (hagree _ hs2).symm)
  · intro hpair
    cases hres : getMergedValuesCheck bigwigs with
    | ok m => exact ⟨m, rfl⟩
    | error e =>
      exfalso
      rw [getMergedValuesCheck] at hres
      revert hres
      generalize ([] : List (String × Nat)) = acc
      generalize allChromNames bigwigs = names
      induction names generalizing acc with
      | nil => intro hres; simp [checkChromSizes] at hres
      | cons c rest ih =>
        intro hres
        unfold checkChromSizes at hres
        split_ifs at hres with hskip hall
        · exact ih _ hres
        · exact ih _ hres
        · rw [List.all_eq_true] at hall
          push_neg at hall
          obtain ⟨s, hs, hsne⟩ := hall
          have hagree : ∀ s1 ∈ sizesFor bigwigs c, ∀ s2 ∈ sizesFor bigwigs c, s1 = s2 := by
            intro s1 hs1 s2 hs2
            rw [sizesFor, List.mem_filterMap] at hs1 hs2
            obtain ⟨wa, hwa, hfa⟩ := hs1
            obtain ⟨wb, hwb, hfb⟩ := hs2
            cases hfa' : wa.find? (fun cc => cc.name = c) with
            | none => rw [hfa'] at hfa; simp at hfa
            | some ca =>
              cases hfb' : wb.find? (fun cc => cc.name = c) with
              | none => rw [hfb'] at hfb; simp at hfb
              | some cb =>
                rw [hfa'] at hfa
                rw [hfb'] at hfb
                simp at hfa hfb
                rw [← hfa, ← hfb]
                exact hpair wa hwa wb hwb c ca cb hfa' hfb'
          have := sizesAgree_of_pairwise hagree s hs
          exact absurd this (by simpa using hsne)

/-- Witness for C8 at concrete inputs (both directions). -/
theorem claim_C8_witness :
    ((∃ w1 ∈ [[ChromInfo.mk "chr1" 100], [ChromInfo.mk "chr1" 200]],
      ∃ w2 ∈ [[ChromInfo.mk "chr1" 100], [ChromInfo.mk "chr1" 200]], ∃ n c1 c2,
        w1.find? (fun c => c.name = n) = some c1 ∧
        w2.find? (fun c => c.name = n) = some c2 ∧
        c1.length ≠ c2.length) ∧
      getMergedValuesCheck [[ChromInfo.mk "chr1" 100], [ChromInfo.mk "chr1" 200]]
        = .error .metadataConflict) ∧
    ((∀ w1 ∈ [[ChromInfo.mk "chr1" 100], [ChromInfo.mk "chr1" 100]],
      ∀ w2 ∈ [[ChromInfo.mk "chr1" 100], [ChromInfo.mk "chr1" 100]],
      ∀ n c1 c2,
        w1.find? (fun c => c.name = n) = some c1 →
        w2.find? (fun c => c.name = n) = some c2 →
        c1.length = c2.length) ∧
      ∃ m, getMergedValuesCheck [[ChromInfo.mk "chr1" 100], [ChromInfo.mk "chr1" 100]]
        = .ok m) := by
  have hconf : ∃ w1 ∈ [[ChromInfo.mk "chr1" 100], [ChromInfo.mk "chr1" 200]],
      ∃ w2 ∈ [[ChromInfo.mk "chr1" 100], [ChromInfo.mk "chr1" 200]], ∃ n c1 c2,
        w1.find? (fun c => c.name = n) = some c1 ∧
        w2.find? (fun c => c.name = n) = some c2 ∧
        c1.length ≠ c2.length :=
    ⟨[ChromInfo.mk "chr1" 100], by simp, [ChromInfo.mk "chr1" 200], by simp,
      "chr1", ChromInfo.mk "chr1" 100, ChromInfo.mk "chr1" 200,
      by decide, by decide, by decide⟩
  have hpair : ∀ w1 ∈ [[ChromInfo.mk "chr1" 100], [ChromInfo.mk "chr1" 100]],
      ∀ w2 ∈ [[ChromInfo.mk "chr1" 100], [ChromInfo.mk "chr1" 100]],
      ∀ n c1 c2,
        w1.find? (fun c => c.name = n) = some c1 →
        w2.find? (fun c => c.name = n) = some c2 →
        c1.length = c2.length := by
    intro w1 hw1 w2 hw2 n c1 c2 hf1 hf2
    have h1 : c1 ∈ w1 := List.mem_of_find?_eq_some hf1
    have h2 : c2 ∈ w2 := List.mem_of_find?_eq_some hf2
    simp only [List.mem_cons, List.not_mem_nil, or_false] at hw1 hw2
    rcases hw1 with rfl | rfl <;> rcases hw2 with rfl | rfl <;>
      simp only [List.mem_singleton] at h1 h2 <;> subst h1 <;> subst h2 <;> rfl
  exact ⟨⟨hconf, (claim_C8_metadata_conflict _).1 hconf⟩,
    hpair, (claim_C8_metadata_conflict _).2 hpair⟩

/-- **C9.**  `TempFileBuffer::switch` succeeds exactly when the buffer is in
`Temp` state: it rewinds the spill file (so all accumulated bytes are copied
regardless of the current position), copies those bytes into the new file at
its write position, and transitions to `Real` holding the new file; calling
`switch` when the state is already `Real` fails with `InvalidState`. -/
theorem claim_C9_switch_spec (state : BufferState) (newFile : FileM) :
    (∀ spill, state = .temp spill →
      switch state newFile
        = .ok (.real (writeBytes newFile spill.content))) ∧
    (∀ f, state = .real f → switch state newFile = .error .invalidState) ∧
    ((∃ b, switch state newFile = .ok b) ↔ ∃ spill, state = .temp spill) := by
  refine ⟨?_, ?_, ?_⟩
  · rintro spill rfl
    simp [switch, copyInto, seekStart]
  · rintro f rfl
    rfl
  · constructor
    · rintro ⟨b, hb⟩
      cases state with
      | temp spill => exact ⟨spill, rfl⟩
      | real f => simp [switch] at hb
    · rintro ⟨spill, rfl⟩
      exact ⟨_, rfl⟩

/-- Witness for C9 at a concrete buffer state. -/
theorem claim_C9_witness :
    (BufferState.temp ⟨[7, 8, 9], 3⟩ = .temp ⟨[7, 8, 9], 3⟩ →
      switch (.temp ⟨[7, 8, 9], 3⟩) ⟨[1, 2], 2⟩
        = .ok (.real (writeBytes ⟨[1, 2], 2⟩ [7, 8, 9]))) ∧
    switch (.real ⟨[4], 1⟩) ⟨[1, 2], 2⟩ = .error .invalidState ∧
    switch (.temp ⟨[7, 8, 9], 3⟩) ⟨[1, 2], 2⟩ = .ok (.real ⟨[1, 2, 7, 8, 9], 5⟩) :=
  ⟨fun _ => (claim_C9_switch_spec (.temp ⟨[7, 8, 9], 3⟩) ⟨[1, 2], 2⟩).1 ⟨[7, 8, 9], 3⟩ rfl,
    (claim_C9_switch_spec (.real ⟨[4], 1⟩) ⟨[1, 2], 2⟩).2.1 ⟨[4], 1⟩ rfl,
    rfl⟩

/-- **C10.**  For a single well-formed source stream (each interval with
`start < end`, sorted with each interval's end at most the next start),
`merge_sections_many` is the identity: same intervals, same order, same
values, zero-valued intervals included. -/
theorem claim_C10_single_source_identity (src : List ValueSection) (h : WFlist src) :
    mergeSectionsMany [src] = src :=
  mergeSectionsMany_single src h

/-- Witness for C10 on a concrete well-formed source with a zero-valued
interval. -/
theorem claim_C10_witness :
    WFlist [⟨1, 3, 0⟩, ⟨4, 6, 2⟩] ∧
    mergeSectionsMany [[(⟨1, 3, 0⟩ : ValueSection), ⟨4, 6, 2⟩]] = [⟨1, 3, 0⟩, ⟨4, 6, 2⟩] :=
  ⟨by simp [WFlist], claim_C10_single_source_identity [⟨1, 3, 0⟩, ⟨4, 6, 2⟩] (by simp [WFlist])⟩
